import Mathlib

/-!
Verification development for the `aicontextator` repository.

The authoritative implementation (per the repository's own design note, the
most feature-complete version) is `src/aicontextator.py`.  This file gives a
shallow embedding of its core pipeline:

* `filter_project_files` / `load_ignore_patterns` — pattern-based file
  selection (the external `pathspec` gitwildmatch collaborator is modelled
  from the spec, see `ruleMatch`);
* `generate_tree_view` — deterministic tree rendering;
* `generate_context` — the streaming context assembler with token-budget
  splitting (the `tiktoken` encoder and `hashlib` sha256 collaborators are
  opaque function parameters);
* `checkSecurityIssue` — the secret-scanner adapter (the `detect_secrets`
  engine is an opaque function parameter);
* the `build_and_write_json` bookkeeping needed by the claims
  (`total_file_count`).

Machine integers do not matter here (Python integers are unbounded and all
counts are non-negative), so token counts and sizes are `Nat`.  The CLI's
`max_tokens`/`warn_tokens` options default to `None` and are used only for
truthiness tests (`if max_tokens and ...`), so `None` and `0` behave
identically; both are modelled as `0`.
-/

/-- A secret finding `{type, line}` as produced by the secret-scanner
adapter (`checkSecurityIssue`). -/
structure Finding where
  type : String
  line : Nat
deriving DecidableEq, Repr

/-- One entry of a part's `files` metadata list, mirroring the dictionaries
built in `generate_context`.  The synthetic header entry carries no
`content` key, hence `content : Option String` (`none` for the header). -/
structure FileMeta where
  path : String
  size_bytes : Nat
  sha256 : String
  estimated_tokens : Nat
  potential_secrets : List Finding
  content : Option String
deriving DecidableEq, Repr

/-- An input file as seen by the pipeline: `abs` is `str(path)` (the absolute
path handed to the secret scanner), `rel` is
`path.relative_to(root_dir).as_posix()`, `size` is `path.stat().st_size`, and
`content` is the result of `open(...).read()` with `errors="ignore"` —
`none` models the read raising an exception. -/
structure SrcFile where
  abs : String
  rel : String
  size : Nat
  content : Option String
deriving DecidableEq, Repr

/-- The mutable accumulator state of `generate_context`'s main loop:
`context_parts`, `token_counts`, `parts_meta` are the completed parts,
`buf` is `current_part_builder`, `cur_tokens` is `current_token_count`,
`cur_meta` is `current_part_files_meta`, `warn_triggered` as in source. -/
structure AsmCore where
  context_parts : List String
  token_counts : List Nat
  parts_meta : List (List FileMeta)
  buf : String
  cur_tokens : Nat
  cur_meta : List FileMeta
  warn_triggered : Bool
deriving Repr

/-- Assembler state together with the log of per-file read-error warnings
(the `click.secho(f"Error reading {file_path}: ...")` messages, recorded by
the absolute path printed). -/
structure AsmState where
  core : AsmCore
  read_errors : List String
deriving Repr

/-- Finalizing the current part: move buffer/count/metadata into the
completed-part lists and reset the accumulators (`generate_context`,
both at the split point and after the loop). -/
def finalizePart (st : AsmCore) : AsmCore :=
  { st with
    context_parts := st.context_parts ++ [st.buf]
    token_counts := st.token_counts ++ [st.cur_tokens]
    parts_meta := st.parts_meta ++ [st.cur_meta]
    buf := ""
    cur_tokens := 0
    cur_meta := [] }

/-- The delimited block built for one file:
`header = f"\n--- FILE: {relative_path.as_posix()} ---\n"` and
`file_block = header + content + "\n"`. -/
def fileBlock (rel content : String) : String :=
  "\n--- FILE: " ++ rel ++ " ---\n" ++ content ++ "\n"

/-- The `file_meta` dictionary built for a successfully read file.
`sha` models `sha256_text` (hashlib), `count` the `_count` token counter,
`secrets_report.get(relative_path_str, [])` becomes an assoc-list lookup
with default `[]`. -/
def metaOfFile (count : String → Nat) (sha : String → String)
    (secrets_report : List (String × List Finding)) (f : SrcFile)
    (content : String) : FileMeta :=
  { path := f.rel
    size_bytes := f.size
    sha256 := sha content
    estimated_tokens := count (fileBlock f.rel content)
    potential_secrets := ((secrets_report.lookup f.rel).getD [])
    content := some content }

/-- One iteration of `generate_context`'s `for file_path in filtered_files`
loop, acting on the accumulator only (the read-error log is handled by
`processFile`).  A `none` content models the `try` body raising at the
read: nothing is mutated.  Otherwise: build the block, compute its cost,
finalize the current part when a budget is configured, the running count is
positive and the budget would be exceeded, then append block/metadata/cost
and update the one-shot `warn_tokens` flag.  (The source also prints a
console warning for a single over-budget file; that message has no effect
on the returned data and is not modelled.) -/
def processFileCore (count : String → Nat) (sha : String → String)
    (secrets_report : List (String × List Finding)) (max_tokens warn_tokens : Nat)
    (st : AsmCore) (f : SrcFile) : AsmCore :=
  match f.content with
  | none => st
  | some content =>
    let block := fileBlock f.rel content
    let block_tokens := count block
    let st :=
      if max_tokens ≠ 0 ∧ max_tokens < st.cur_tokens + block_tokens ∧ 0 < st.cur_tokens then
        finalizePart st
      else st
    let st :=
      { st with
        cur_meta := st.cur_meta ++ [metaOfFile count sha secrets_report f content]
        buf := st.buf ++ block
        cur_tokens := st.cur_tokens + block_tokens }
    if warn_tokens ≠ 0 ∧ warn_tokens < st.cur_tokens ∧ st.warn_triggered = false then
      { st with warn_triggered := true }
    else st

/-- One loop iteration including the `except` branch's warning: a failed
read appends one "Error reading ..." message (identified by the file's
absolute path) to the log. -/
def processFile (count : String → Nat) (sha : String → String)
    (secrets_report : List (String × List Finding)) (max_tokens warn_tokens : Nat)
    (st : AsmState) (f : SrcFile) : AsmState :=
  { core := processFileCore count sha secrets_report max_tokens warn_tokens st.core f
    read_errors := st.read_errors ++ (match f.content with | none => [f.abs] | some _ => []) }

/-- The fixed instructional preamble written when the header is not
suppressed. -/
def headerInstr : String :=
  "The following text is a collection of source code files from a software project. Each file is delimited by a header line starting with \"--- FILE: [filepath]\".\nUse only this content as the source of truth when answering questions.\n\n"

/-- The `preliminary_text` as assembled in `generate_context`: optional
instructional header, optional tree section, and always the opening
sentinel `<<<\n` (so it is never empty). -/
def preliminaryText (prompt_no_header : Bool) (tree_view : String) : String :=
  (if prompt_no_header = false then headerInstr else "") ++
    (if tree_view ≠ "" then "The project structure is as follows:\n" ++ tree_view ++ "\n\n" else "") ++
    "<<<\n"

/-- The accumulator state right before the file loop: the preliminary text
has been written and (since `preliminary_text` is always truthy) its
pseudo-file header entry appended. -/
def initCore (count : String → Nat) (sha : String → String)
    (prompt_no_header : Bool) (tree_view : String) : AsmCore :=
  let pt := preliminaryText prompt_no_header tree_view
  { context_parts := []
    token_counts := []
    parts_meta := []
    buf := pt
    cur_tokens := count pt
    cur_meta := [{ path := "_aicontext_header_"
                   size_bytes := pt.utf8ByteSize
                   sha256 := sha pt
                   estimated_tokens := count pt
                   potential_secrets := []
                   content := none }]
    warn_triggered := false }

/-- The body of `generate_context` once a token counter `count` is in scope:
initial state, the file loop, the closing `>>>\n` delimiter, and the final
`if current_part_builder.tell() > 0` finalization. -/
def generate_context_run (count : String → Nat) (sha : String → String)
    (secrets_report : List (String × List Finding)) (max_tokens warn_tokens : Nat)
    (prompt_no_header : Bool) (tree_view : String) (filtered_files : List SrcFile) :
    AsmState :=
  let st := filtered_files.foldl (processFile count sha secrets_report max_tokens warn_tokens)
    { core := initCore count sha prompt_no_header tree_view, read_errors := [] }
  let core : AsmCore := { st.core with buf := st.core.buf ++ ">>>\n" }
  let core : AsmCore := if 0 < core.buf.length then finalizePart core else core
  { core := core, read_errors := st.read_errors }

/-- The token-counter selection at the top of `generate_context`:
with `count_tokens` set the counter is the tiktoken encoder when its
initialization succeeded; when initialization raised, the `except` branch
only prints a message and `_count` is left unassigned, modelled as `none`.
With `count_tokens` unset, `_count = lambda text: 0`. -/
def countFn (tiktoken_enc : Option (String → Nat)) (count_tokens : Bool) :
    Option (String → Nat) :=
  if count_tokens then tiktoken_enc else some fun _ => 0

/-- Function `generate_context(root_dir, filtered_files, secrets_report, count_tokens,
max_tokens, warn_tokens, prompt_no_header, tree_view)`.  `sha` models
`sha256_text` and `tiktoken_enc` the (fallible) tiktoken initialization.
When `count_tokens` is set and initialization failed, the first use of
`_count` — which always happens, because `preliminary_text` is never
empty — raises an unhandled `NameError`, modelled as `Except.error`;
otherwise the run completes and returns the
`(context_parts, token_counts, parts_meta)` triple. -/
def generate_context (sha : String → String) (tiktoken_enc : Option (String → Nat))
    (filtered_files : List SrcFile) (secrets_report : List (String × List Finding))
    (count_tokens : Bool) (max_tokens warn_tokens : Nat)
    (prompt_no_header : Bool) (tree_view : String) :
    Except String (List String × List Nat × List (List FileMeta)) :=
  match countFn tiktoken_enc count_tokens with
  | none => .error "NameError: name _count is not defined"
  | some count =>
    let st := generate_context_run count sha secrets_report max_tokens warn_tokens
      prompt_no_header tree_view filtered_files
    .ok (st.core.context_parts, st.core.token_counts, st.core.parts_meta)

/-- The `f["path"] != "_aicontext_header_"` test used by
`build_and_write_json` to separate real files from the synthetic header
entry. -/
def notHeaderEntry (m : FileMeta) : Bool := m.path ≠ "_aicontext_header_"

/-- The `total_file_count` computation of `build_and_write_json`: in each
part, count the `files` entries whose path is not the synthetic header
sentinel, and sum over parts. -/
def total_file_count (parts_meta : List (List FileMeta)) : Nat :=
  (parts_meta.map (fun files => files.countP notHeaderEntry)).sum

/-- The secret-scanner adapter.  `scanner` models the external
`detect_secrets` engine invoked on `[str(p) for p in filtered_files]`
(absolute path strings); it returns `none` when the engine raises (the
adapter then returns the empty report) and otherwise the engine's
`secrets.data` keyed by the path strings it was handed.  The adapter copies
each entry into the report under `rel_path = file_path` — the key is the
scanned path itself, no relativization happens. -/
def checkSecurityIssue (scanner : List String → Option (List (String × List Finding)))
    (filtered_files : List SrcFile) : List (String × List Finding) :=
  match scanner (filtered_files.map (fun f => f.abs)) with
  | none => []
  | some secrets_found =>
    secrets_found.map (fun kv => (kv.1, kv.2.map (fun s => ({ type := s.type, line := s.line } : Finding))))

/-! ### File filtering (`load_ignore_patterns`, `filter_project_files`) -/

/-- The module-level `_DEFAULT_EXCLUDE_PATTERNS` list. -/
def DEFAULT_EXCLUDE_PATTERNS : List String :=
  [".git/", "node_modules/", "vendor/", "__pycache__/", ".venv/",
   "package-lock.json", "storage/", "public/build/", ".idea/", ".vscode/",
   ".env", ".env.*", "*.pyc", "*.log"]

/-- Python `str` operations are modelled at the level of their code-point
sequences (`String.data`); a Python string is an immutable sequence of
code points, so these are the operations' definitions, not simplifications.
`pyIsSpace` is Python's `str.strip` whitespace class. -/
def pyIsSpace (c : Char) : Bool :=
  c = ' ' || c = '\t' || c = '\n' || c = '\r' || c = '\x0b' || c = '\x0c'

/-- Python `s.strip()`: remove leading and trailing whitespace. -/
def pyStrip (s : String) : String :=
  ⟨((s.data.dropWhile pyIsSpace).reverse.dropWhile pyIsSpace).reverse⟩

/-- Python `s.startswith(pre)`. -/
def strStartsWith (s pre : String) : Bool := pre.data.isPrefixOf s.data

/-- Python `s.endswith(suf)`. -/
def strEndsWith (s suf : String) : Bool := suf.data.isSuffixOf s.data

/-- Line cleaning applied to `.gitignore` / `.contextignore` contents:
strip each line, drop blanks and `#` comments. -/
def cleanLines (lines : List String) : List String :=
  (lines.map pyStrip).filter (fun l => !decide (l = "") && !(strStartsWith l "#"))

/-- Function `load_ignore_patterns`: defaults, then the cleaned `.gitignore` lines,
then the cleaned `.contextignore` lines.  `none` models an absent (or
unreadable, warned-and-skipped) ignore file. -/
def load_ignore_patterns (gitignore contextignore : Option (List String)) : List String :=
  DEFAULT_EXCLUDE_PATTERNS ++
    (match gitignore with | some ls => cleanLines ls | none => []) ++
    (match contextignore with | some ls => cleanLines ls | none => [])

/-- All suffixes of a code-point sequence, longest first. -/
def tailsList : List Char → List (List Char)
  | [] => [[]]
  | c :: cs => (c :: cs) :: tailsList cs

/-- Modelled from the spec: single-segment glob matching of the external
`pathspec` gitwildmatch collaborator — `*` matches any run of characters
within one path segment (any suffix continuation), `?` exactly one
character, other characters literally. -/
def globMatch : List Char → List Char → Bool
  | [], cs => cs.isEmpty
  | '*' :: ps, cs => (tailsList cs).any (fun suf => globMatch ps suf)
  | '?' :: ps, _ :: cs => globMatch ps cs
  | _ :: _, [] => false
  | p :: ps, c :: cs => (p = c) && globMatch ps cs

/-- Splitting a code-point sequence at `/` separators (Python
`"a/b".split("/") = ["a", "b"]`, `"".split("/") = [""]`). -/
def splitSlash : List Char → List (List Char)
  | [] => [[]]
  | '/' :: rest => [] :: splitSlash rest
  | c :: rest =>
    match splitSlash rest with
    | [] => [[c]]
    | seg :: segs => (c :: seg) :: segs

/-- Split a POSIX-style relative path into its segments. -/
def segsOf (p : String) : List String := (splitSlash p.data).map (fun cs => ⟨cs⟩)

/-- Glob match on one path segment. -/
def segGlob (pat seg : String) : Bool := globMatch pat.data seg.data

/-- Modelled from the spec: an anchored (slash-containing) gitwildmatch
pattern matches a path when its segments match a leading chain of the
path's segments; whatever lies below a matched chain is matched too. -/
def anchoredMatch : List String → List String → Bool
  | [], _ => true
  | _ :: _, [] => false
  | pat :: pats, s :: ss => segGlob pat s && anchoredMatch pats ss

/-- Modelled from the spec: an anchored directory pattern (trailing slash)
additionally requires the matched chain to be a proper prefix — the
directory must contain the file. -/
def anchoredDirMatch : List String → List String → Bool
  | [], [] => false
  | [], _ :: _ => true
  | _ :: _, [] => false
  | pat :: pats, s :: ss => segGlob pat s && anchoredDirMatch pats ss

/-- Modelled from the spec: an unanchored (slash-free) pattern matches a
path when some segment matches it; a directory pattern may only match a
non-final segment (the file itself cannot be the directory). -/
def componentMatch (pat : String) (dirOnly : Bool) : List String → Bool
  | [] => false
  | [s] => !dirOnly && segGlob pat s
  | s :: rest => segGlob pat s || componentMatch pat dirOnly rest

/-- Modelled from the spec: whether one gitwildmatch rule matches a
root-relative POSIX path.  Trailing `/` marks a directory-only rule; a rule
containing `/` is anchored at the root, otherwise it floats over all
segments.  (`**` segment wildcards and negation prefixes appear in neither
the built-in excludes nor any claim and negation is handled in
`matchFile`; `**` is not modelled.) -/
def ruleMatch (rule path : String) : Bool :=
  let dirOnly := strEndsWith rule "/"
  let core0 : String := if dirOnly then ⟨rule.data.dropLast⟩ else rule
  let anchored := core0.data.contains '/'
  let core : String := if strStartsWith core0 "/" then ⟨core0.data.drop 1⟩ else core0
  let ss := segsOf path
  if anchored then
    if dirOnly then anchoredDirMatch (segsOf core) ss else anchoredMatch (segsOf core) ss
  else componentMatch core dirOnly ss

/-- Modelled from the spec: `pathspec.PathSpec.from_lines("gitwildmatch",
patterns).match_file(path)` — last-match-wins over the ordered rule list,
`!`-prefixed rules un-match. -/
def matchFile (patterns : List String) (path : String) : Bool :=
  patterns.foldl
    (fun acc pat =>
      if strStartsWith pat "!" then (if ruleMatch ⟨pat.data.drop 1⟩ path then false else acc)
      else (if ruleMatch pat path then true else acc))
    false

/-- The built-in `final_include_extensions` fallback list. -/
def default_include_extensions : List String :=
  [".py", ".js", ".vue", ".php", ".md", ".json", ".blade.php",
   ".css", ".scss", ".sql", ".sh", "Dockerfile", ".env.example",
   "composer.json", "package.json", "readme.md"]

/-- Python `path.name` — the final path segment. -/
def basename (p : String) : String := ((segsOf p).getLast?).getD p

/-- Function `filter_project_files`: merge the ignore patterns with the CLI excludes,
pick the extension allow-list (`include_extensions or [...]` — an empty
list selects the built-in default), and keep each regular file (given here
by its root-relative POSIX path, in `rglob` traversal order) iff its path
does not match the merged rule set and its basename ends with one of the
allowed suffixes. -/
def filter_project_files (gitignore contextignore : Option (List String))
    (exclude_cli_patterns : List String) (include_extensions : List String)
    (all_files : List String) : List String :=
  let all_patterns := load_ignore_patterns gitignore contextignore ++ exclude_cli_patterns
  let final_include_extensions :=
    if include_extensions.isEmpty then default_include_extensions else include_extensions
  all_files.filter (fun p =>
    !(matchFile all_patterns p) &&
      final_include_extensions.any (fun ext => strEndsWith (basename p) ext))

/-! ### Tree rendering (`generate_tree_view`) -/

/-- The nested-dictionary tree: children are an insertion-ordered
association list from path segment to subtree (Python `dict` keys are
unique and iterate in insertion order). -/
inductive DirTree where
  | node : List (String × DirTree) → DirTree
deriving Inhabited, Repr

/-- The children association list of a tree node. -/
def DirTree.children : DirTree → List (String × DirTree)
  | .node cs => cs

/-- Inserting one path (as its list of segments) into the nested
dictionary, as `generate_tree_view`'s loop does: walk the segments,
descending into an existing entry or appending a fresh empty one (a new
Python dict key is appended at the end). -/
def insertPath : DirTree → List String → DirTree
  | t, [] => t
  | .node cs, s :: rest =>
    if cs.any (fun kt => kt.1 = s) then
      .node (cs.map (fun kt => if kt.1 = s then (s, insertPath kt.2 rest) else kt))
    else
      .node (cs ++ [(s, insertPath (.node []) rest)])

/-- The nested dictionary built from all files' relative-path segments. -/
def buildTree (paths : List (List String)) : DirTree :=
  paths.foldl insertPath (.node [])

/-- Python's string comparison: lexicographic over Unicode code points
(`Char`'s linear order). -/
def lexLe : List Char → List Char → Bool
  | [], _ => true
  | _ :: _, [] => false
  | a :: as, b :: bs => if a = b then lexLe as bs else decide (a < b)

/-- Ordering of children entries by their segment name, mirroring Python's
`sorted(structure.keys())` (case-sensitive lexicographic string order). -/
def pairLe (a b : String × DirTree) : Prop := lexLe a.1.data b.1.data = true

instance : DecidableRel pairLe := fun _ _ => inferInstanceAs (Decidable (_ = true))

theorem lexLe_total : ∀ a b : List Char, lexLe a b = true ∨ lexLe b a = true
  | [], _ => by left; rfl
  | _ :: _, [] => by right; rfl
  | a :: as, b :: bs => by
    by_cases hab : a = b
    · subst hab
      rcases lexLe_total as bs with h | h
      · left; simpa [lexLe] using h
      · right; simpa [lexLe] using h
    · rcases lt_or_gt_of_ne hab with h | h
      · left; simp [lexLe, hab, h]
      · have hba : b ≠ a := fun e => hab e.symm
        right; simp [lexLe, hba, h]

instance : IsTotal (String × DirTree) pairLe := ⟨fun a b => lexLe_total a.1.data b.1.data⟩

theorem lexLe_trans : ∀ a b c : List Char,
    lexLe a b = true → lexLe b c = true → lexLe a c = true
  | [], _, _ => by intro _ _; rfl
  | _ :: _, [], _ => by intro h _; simp [lexLe] at h
  | _ :: _, _ :: _, [] => by intro _ h; simp [lexLe] at h
  | a :: as, b :: bs, c :: cs => by
    intro h1 h2
    by_cases hab : a = b <;> by_cases hbc : b = c
    · subst hab; subst hbc
      simp only [lexLe, if_pos rfl] at h1 h2 ⊢
      exact lexLe_trans as bs cs h1 h2
    · subst hab
      simpa only [lexLe, if_pos rfl, if_neg hbc] using h2
    · subst hbc
      simpa only [lexLe, if_neg hab] using h1
    · simp only [lexLe, if_neg hab, decide_eq_true_eq] at h1
      simp only [lexLe, if_neg hbc, decide_eq_true_eq] at h2
      have hac : a < c := lt_trans h1 h2
      have hane : a ≠ c := ne_of_lt hac
      simp [lexLe, hane, hac]

instance : IsTrans (String × DirTree) pairLe :=
  ⟨fun _ _ _ h1 h2 => lexLe_trans _ _ _ h1 h2⟩

mutual

/-- Recursively order every level's children by segment name.  Python's
renderer sorts the keys of each dict as it visits it; since rendering never
mutates the tree and dict keys are unique, pre-sorting every level once is
the same computation. -/
def sortTree : DirTree → DirTree
  | .node cs => .node (List.insertionSort pairLe (sortChildren cs))

/-- Pointwise `sortTree` over a children list. -/
def sortChildren : List (String × DirTree) → List (String × DirTree)
  | [] => []
  | (k, t) :: cs => (k, sortTree t) :: sortChildren cs

end

mutual

/-- Function `build_tree_lines(structure, prefix)` on an already-sorted tree: emit
`prefix + connector + name` per child, recursing with the continuation
prefix when the child has children (`if structure[name]:`). -/
def tree_lines : DirTree → String → List String
  | .node cs, pref => lines_go cs pref

/-- The `for i, name in enumerate(items)` body: the last sibling gets the
`└── ` connector and blank continuation, earlier siblings `├── ` and
`│   `. -/
def lines_go : List (String × DirTree) → String → List String
  | [], _ => []
  | [(name, t)], pref =>
    (pref ++ "└── " ++ name) ::
      (if t.children.isEmpty then [] else tree_lines t (pref ++ "    "))
  | (name, t) :: rest, pref =>
    (pref ++ "├── " ++ name) ::
      ((if t.children.isEmpty then [] else tree_lines t (pref ++ "│   ")) ++ lines_go rest pref)

end

/-- Function `generate_tree_view(root_dir, filtered_files)`: build the nested
dictionary from the files' root-relative paths (each given here by its
`relative_path.parts` segment list), then emit the `<root-name>/` line
followed by the connector-formatted, per-level sorted tree, joined with
newlines. -/
def generate_tree_view (rootName : String) (files : List (List String)) : String :=
  String.intercalate "\n"
    ((rootName ++ "/") :: tree_lines (sortTree (buildTree files)) "")

/-! ### Claim theorems -/

/-- Claim C1 (code bug): when token counting is requested and the tiktoken
encoder fails to initialize, the `except` branch only prints "Disabling
token counting." and never assigns `_count`; the first use of `_count` —
which always executes, since the preliminary text is never empty — raises
an unhandled `NameError` and the run aborts instead of degrading to
zero-cost counting as the spec (and the repository's two earlier drafts,
which do assign `_count = lambda text: 0` there) intend. -/
theorem c1_token_encoder_init_failure_raises (sha : String → String)
    (filtered_files : List SrcFile) (secrets_report : List (String × List Finding))
    (max_tokens warn_tokens : Nat) (prompt_no_header : Bool) (tree_view : String) :
    generate_context sha none filtered_files secrets_report true max_tokens warn_tokens
        prompt_no_header tree_view
      = .error "NameError: name _count is not defined" := rfl

/-- Claim C2 (code bug): `checkSecurityIssue` keys its report by the path
string the external classifier was invoked with (`rel_path = file_path`,
with no relativization — the scanned paths are the absolute
`str(p)` strings), while `generate_context` looks the report up by the
root-relative POSIX path; consequently a file with classifier findings
still gets empty `potential_secrets` metadata. -/
theorem c2_secrets_report_keyed_by_scan_path :
    let f : SrcFile := ⟨"/proj/src/app.py", "src/app.py", 12, some "pw = hunter2"⟩
    let report := checkSecurityIssue
      (fun _ => some [("/proj/src/app.py", [⟨"Secret Keyword", 1⟩])]) [f]
    report = [("/proj/src/app.py", [⟨"Secret Keyword", 1⟩])]
    ∧ report.lookup "src/app.py" = none
    ∧ ((generate_context_run (fun _ => 0) (fun s => s) report 0 0 true ""
          [f]).core.parts_meta.flatten.filter (fun m => m.path = "src/app.py")).map
        (fun m => m.potential_secrets) = [[]] := by
  refine ⟨rfl, rfl, ?_⟩
  decide

/-- Claim C3 (counterexample): assembling the single file `src/main.py`
containing `print('hello')` with the header suppressed does NOT yield a
part that is exactly
`--- FILE: src/main.py ---\n\n` + `print('hello')` + `\n\n`: the
feature-complete implementation always wraps the output in the `<<<\n` /
`>>>\n` sentinels and formats the block as
`\n--- FILE: <path> ---\n<content>\n`. -/
theorem c3_counterexample :
    (generate_context_run (fun _ => 0) (fun s => s) [] 0 0 true ""
        [⟨"/p/src/main.py", "src/main.py", 14, some "print('hello')"⟩]).core.context_parts
      = ["<<<\n\n--- FILE: src/main.py ---\nprint('hello')\n>>>\n"]
    ∧ "<<<\n\n--- FILE: src/main.py ---\nprint('hello')\n>>>\n"
      ≠ "--- FILE: src/main.py ---\n\nprint('hello')\n\n" := by
  exact ⟨rfl, by decide⟩

/-- Claim C3 (amended): assembling the single file `src/main.py` containing
`print('hello')` with the header suppressed (and no tree, token counting
off) produces exactly one part, whose full text is the opening sentinel
`<<<\n`, the delimited block `\n--- FILE: src/main.py ---\n` +
`print('hello')` + `\n`, and the closing delimiter `>>>\n`, with no other
characters. -/
theorem c3_amended_single_part_text :
    (generate_context_run (fun _ => 0) (fun s => s) [] 0 0 true ""
        [⟨"/p/src/main.py", "src/main.py", 14, some "print('hello')"⟩]).core.context_parts
      = ["<<<\n" ++ ("\n--- FILE: src/main.py ---\n" ++ "print('hello')" ++ "\n") ++ ">>>\n"] :=
  rfl

/-- Claim C5 (counterexample): with a stubbed token counter returning 15
for every text and a budget of 20, assembling two files does NOT produce 2
parts: the always-present preliminary text (at least the `<<<\n` sentinel)
is also counted at 15, so the assembler emits 3 parts. -/
theorem c5_counterexample :
    (generate_context_run (fun _ => 15) (fun s => s) [] 20 0 true ""
        [⟨"/r/a.py", "a.py", 1, some "A"⟩,
         ⟨"/r/b.py", "b.py", 1, some "B"⟩]).core.context_parts.length = 3
    ∧ (generate_context_run (fun _ => 15) (fun s => s) [] 20 0 true ""
        [⟨"/r/a.py", "a.py", 1, some "A"⟩,
         ⟨"/r/b.py", "b.py", 1, some "B"⟩]).core.context_parts.length ≠ 2 := by
  exact ⟨rfl, by decide⟩

/-- Claim C5 (amended): with a stubbed token counter fixed at 15 (applied
to the preliminary text as well) and a budget of 20, assembling two files
produces exactly 3 parts: part 1 holds only the synthetic header entry,
the first file is alone in part 2, and the second file is alone in part 3,
each part costing 15 tokens. -/
theorem c5_amended_three_parts :
    generate_context (fun s => s) (some fun _ => 15)
        [⟨"/r/a.py", "a.py", 1, some "A"⟩, ⟨"/r/b.py", "b.py", 1, some "B"⟩]
        [] true 20 0 true ""
      = .ok (["<<<\n", "\n--- FILE: a.py ---\nA\n", "\n--- FILE: b.py ---\nB\n>>>\n"],
             [15, 15, 15],
             [[⟨"_aicontext_header_", 4, "<<<\n", 15, [], none⟩],
              [⟨"a.py", 1, "A", 15, [], some "A"⟩],
              [⟨"b.py", 1, "B", 15, [], some "B"⟩]]) := rfl

/-- Claim C7: a candidate file survives `filter_project_files` iff its
root-relative POSIX path does not match the merged ignore rule set and its
basename ends with one of the allowed suffixes (the built-in default list
when none is supplied); in particular, on the claim's six-file tree with
`.gitignore` rules `.env`, `docs/`, `.contextignore` rule `config.json`
and CLI exclude `src/utils.js`, exactly `src/main.py` survives. -/
theorem c7_filter_correctness :
    (∀ (gitignore contextignore : Option (List String))
       (exclude_cli_patterns include_extensions all_files : List String) (p : String),
       p ∈ filter_project_files gitignore contextignore exclude_cli_patterns
           include_extensions all_files ↔
         p ∈ all_files ∧
           matchFile (load_ignore_patterns gitignore contextignore ++ exclude_cli_patterns) p
             = false ∧
           (if include_extensions.isEmpty then default_include_extensions
            else include_extensions).any (fun ext => strEndsWith (basename p) ext) = true)
    ∧ filter_project_files (some [".env", "docs/"]) (some ["config.json"]) ["src/utils.js"] []
        ["src/main.py", "src/utils.js", "docs/guide.md", "node_modules/lib.js", ".env",
          "config.json"]
      = ["src/main.py"] := by
  constructor
  · intro gitignore contextignore cli exts fs p
    simp [filter_project_files, List.mem_filter, Bool.and_eq_true, Bool.not_eq_true']
  · decide

/-- Claim C10: for every input — including an empty file list, suppressed
header and no tree — the assembler returns a non-empty list of parts: the
preliminary text always ends with the opening sentinel `<<<\n`, the
closing `>>>\n` is appended before the final emptiness check, so that
check always passes and `context_parts[0]` can never index an empty
list. -/
theorem c10_parts_nonempty (count : String → Nat) (sha : String → String)
    (secrets_report : List (String × List Finding)) (max_tokens warn_tokens : Nat)
    (prompt_no_header : Bool) (tree_view : String) (filtered_files : List SrcFile) :
    (∃ s, preliminaryText prompt_no_header tree_view = s ++ "<<<\n")
    ∧ (generate_context_run count sha secrets_report max_tokens warn_tokens
        prompt_no_header tree_view filtered_files).core.context_parts ≠ [] := by
  constructor
  · exact ⟨(if prompt_no_header = false then headerInstr else "") ++
      (if tree_view ≠ "" then "The project structure is as follows:\n" ++ tree_view ++ "\n\n"
       else ""), by simp [preliminaryText, String.append_assoc]⟩
  · unfold generate_context_run
    set st := filtered_files.foldl
      (processFile count sha secrets_report max_tokens warn_tokens)
      { core := initCore count sha prompt_no_header tree_view, read_errors := [] } with hst
    have hlen : 0 < (st.core.buf ++ ">>>\n").length := by
      rw [String.length_append]
      have h4 : (">>>\n" : String).length = 4 := rfl
      omega
    simp only [hlen, if_pos]
    simp [finalizePart]

/-! ### Claim C8: per-file read failures -/

/-- The read-error warnings a file list will produce: one per file whose
read raises. -/
def errLog (l : List SrcFile) : List String :=
  l.filterMap (fun g => match g.content with | none => some g.abs | some _ => none)

/-- The accumulator component of the loop ignores the warning log. -/
theorem foldl_processFile_core (count : String → Nat) (sha : String → String)
    (secrets_report : List (String × List Finding)) (max_tokens warn_tokens : Nat) :
    ∀ (l : List SrcFile) (st : AsmState),
      (l.foldl (processFile count sha secrets_report max_tokens warn_tokens) st).core
        = l.foldl (processFileCore count sha secrets_report max_tokens warn_tokens) st.core
  | [], _ => rfl
  | f :: l, st => by
    rw [List.foldl_cons, List.foldl_cons,
      foldl_processFile_core count sha secrets_report max_tokens warn_tokens l]
    rfl

/-- The warning log collects exactly the failed reads, in order. -/
theorem foldl_processFile_read_errors (count : String → Nat) (sha : String → String)
    (secrets_report : List (String × List Finding)) (max_tokens warn_tokens : Nat) :
    ∀ (l : List SrcFile) (st : AsmState),
      (l.foldl (processFile count sha secrets_report max_tokens warn_tokens) st).read_errors
        = st.read_errors ++ errLog l
  | [], st => by simp [errLog]
  | f :: l, st => by
    rw [List.foldl_cons,
      foldl_processFile_read_errors count sha secrets_report max_tokens warn_tokens l]
    cases hf : f.content <;> simp [processFile, errLog, hf]

/-- A file whose read raises mutates nothing in the accumulator. -/
theorem processFileCore_skip (count : String → Nat) (sha : String → String)
    (secrets_report : List (String × List Finding)) (max_tokens warn_tokens : Nat)
    (st : AsmCore) (f : SrcFile) (hf : f.content = none) :
    processFileCore count sha secrets_report max_tokens warn_tokens st f = st := by
  simp [processFileCore, hf]

/-- Projection of one loop step to the accumulator. -/
theorem processFile_core_proj (count : String → Nat) (sha : String → String)
    (secrets_report : List (String × List Finding)) (max_tokens warn_tokens : Nat)
    (st : AsmState) (f : SrcFile) :
    (processFile count sha secrets_report max_tokens warn_tokens st f).core
      = processFileCore count sha secrets_report max_tokens warn_tokens st.core f := rfl

/-- Claim C8: a file whose read raises during assembly is skipped entirely —
the parts, token counts and metadata of the run are exactly those of the
run without that file (so it contributes nothing to any buffer, metadata
list or token count, and the remaining files are processed identically) —
and one non-fatal "Error reading" warning is emitted for it, in
position. -/
theorem c8_read_failure_skip (count : String → Nat) (sha : String → String)
    (secrets_report : List (String × List Finding)) (max_tokens warn_tokens : Nat)
    (prompt_no_header : Bool) (tree_view : String)
    (l1 l2 : List SrcFile) (f : SrcFile) (hf : f.content = none) :
    (generate_context_run count sha secrets_report max_tokens warn_tokens
        prompt_no_header tree_view (l1 ++ f :: l2)).core
      = (generate_context_run count sha secrets_report max_tokens warn_tokens
          prompt_no_header tree_view (l1 ++ l2)).core
    ∧ (generate_context_run count sha secrets_report max_tokens warn_tokens
        prompt_no_header tree_view (l1 ++ f :: l2)).read_errors
      = errLog l1 ++ f.abs :: errLog l2 := by
  unfold generate_context_run
  constructor
  · simp only [foldl_processFile_core, List.foldl_append, List.foldl_cons,
      processFile_core_proj, processFileCore_skip, hf]
  · simp only [foldl_processFile_read_errors, errLog, List.filterMap_append,
      List.filterMap_cons, hf]
    simp

/-- Claim C8 witness: a concrete run with one unreadable file between two
readable ones. -/
theorem c8_witness :
    (generate_context_run (fun _ => 0) (fun s => s) [] 0 0 true ""
        ([⟨"/r/a.py", "a.py", 1, some "A"⟩] ++
          (⟨"/r/x.py", "x.py", 1, none⟩ : SrcFile) :: [⟨"/r/b.py", "b.py", 1, some "B"⟩])).core
      = (generate_context_run (fun _ => 0) (fun s => s) [] 0 0 true ""
          ([⟨"/r/a.py", "a.py", 1, some "A"⟩] ++ [⟨"/r/b.py", "b.py", 1, some "B"⟩])).core
    ∧ (generate_context_run (fun _ => 0) (fun s => s) [] 0 0 true ""
        ([⟨"/r/a.py", "a.py", 1, some "A"⟩] ++
          (⟨"/r/x.py", "x.py", 1, none⟩ : SrcFile) :: [⟨"/r/b.py", "b.py", 1, some "B"⟩])).read_errors
      = errLog [⟨"/r/a.py", "a.py", 1, some "A"⟩] ++
          "/r/x.py" :: errLog [⟨"/r/b.py", "b.py", 1, some "B"⟩] :=
  c8_read_failure_skip (fun _ => 0) (fun s => s) [] 0 0 true ""
    [⟨"/r/a.py", "a.py", 1, some "A"⟩] [⟨"/r/b.py", "b.py", 1, some "B"⟩]
    ⟨"/r/x.py", "x.py", 1, none⟩ rfl

/-! ### Claim C6: no silent drop -/

/-- The sequence of files recorded across all parts' metadata, excluding
the synthetic header entry, in order of appearance. -/
def metaFilePaths (parts_meta : List (List FileMeta)) : List String :=
  (parts_meta.flatten.filter notHeaderEntry).map (fun m => m.path)

/-- All metadata entries produced so far: completed parts plus the current
accumulator, in order. -/
def collectMeta (st : AsmCore) : List FileMeta :=
  st.parts_meta.flatten ++ st.cur_meta

/-- One loop step appends exactly the processed file's metadata entry (and
nothing, for a failed read) to the overall metadata sequence; finalizing a
part only moves entries, never drops or duplicates them. -/
theorem processFileCore_collect (count : String → Nat) (sha : String → String)
    (secrets_report : List (String × List Finding)) (max_tokens warn_tokens : Nat)
    (st : AsmCore) (f : SrcFile) :
    collectMeta (processFileCore count sha secrets_report max_tokens warn_tokens st f)
      = collectMeta st ++
          (match f.content with
           | some content => [metaOfFile count sha secrets_report f content]
           | none => []) := by
  cases hf : f.content with
  | none => simp [processFileCore, hf]
  | some content =>
    simp only [processFileCore, hf]
    split <;> split <;>
      simp [collectMeta, finalizePart, List.flatten_append, List.append_assoc]

/-- The whole loop appends the readable files' metadata entries, in input
order. -/
theorem foldl_processFileCore_collect (count : String → Nat) (sha : String → String)
    (secrets_report : List (String × List Finding)) (max_tokens warn_tokens : Nat) :
    ∀ (l : List SrcFile) (st : AsmCore),
      collectMeta (l.foldl (processFileCore count sha secrets_report max_tokens warn_tokens) st)
        = collectMeta st ++
            l.filterMap (fun f => f.content.map (fun c => metaOfFile count sha secrets_report f c))
  | [], st => by simp
  | f :: l, st => by
    rw [List.foldl_cons,
      foldl_processFileCore_collect count sha secrets_report max_tokens warn_tokens l,
      processFileCore_collect]
    cases hf : f.content <;> simp [hf]

/-- After the final (always-taken) finalization, the concatenated parts
metadata is exactly the loop's collected metadata. -/
theorem run_parts_meta_flatten (count : String → Nat) (sha : String → String)
    (secrets_report : List (String × List Finding)) (max_tokens warn_tokens : Nat)
    (prompt_no_header : Bool) (tree_view : String) (filtered_files : List SrcFile) :
    (generate_context_run count sha secrets_report max_tokens warn_tokens
        prompt_no_header tree_view filtered_files).core.parts_meta.flatten
      = collectMeta (filtered_files.foldl
          (processFileCore count sha secrets_report max_tokens warn_tokens)
          (initCore count sha prompt_no_header tree_view)) := by
  unfold generate_context_run
  set st := filtered_files.foldl
    (processFile count sha secrets_report max_tokens warn_tokens)
    { core := initCore count sha prompt_no_header tree_view, read_errors := [] } with hst
  have hlen : 0 < (st.core.buf ++ ">>>\n").length := by
    rw [String.length_append]
    have h4 : (">>>\n" : String).length = 4 := rfl
    omega
  simp only [hlen, if_pos]
  rw [show st.core = filtered_files.foldl
      (processFileCore count sha secrets_report max_tokens warn_tokens)
      (initCore count sha prompt_no_header tree_view) from
    foldl_processFile_core count sha secrets_report max_tokens warn_tokens filtered_files _]
  simp [finalizePart, collectMeta, List.flatten_append]

/-- A real file's metadata entry never carries the header sentinel path
(given the file itself is not named like it). -/
theorem notHeaderEntry_metaOfFile (count : String → Nat) (sha : String → String)
    (secrets_report : List (String × List Finding)) (f : SrcFile) (c : String)
    (h : f.rel ≠ "_aicontext_header_") :
    notHeaderEntry (metaOfFile count sha secrets_report f c) = true := by
  simpa [notHeaderEntry, metaOfFile] using h

/-- On an all-readable file list the collected non-header metadata paths
are exactly the input relative paths, in order. -/
theorem filtered_paths_of_readable (count : String → Nat) (sha : String → String)
    (secrets_report : List (String × List Finding)) :
    ∀ (files : List SrcFile),
      (∀ f ∈ files, f.content.isSome = true) →
      (∀ f ∈ files, f.rel ≠ "_aicontext_header_") →
      ((files.filterMap
          (fun f => f.content.map (fun c => metaOfFile count sha secrets_report f c))).filter
            notHeaderEntry).map (fun m => m.path)
        = files.map SrcFile.rel
  | [], _, _ => rfl
  | f :: files, h1, h2 => by
    obtain ⟨c, hc⟩ := Option.isSome_iff_exists.mp (h1 f (List.mem_cons_self f files))
    have hrel : f.rel ≠ "_aicontext_header_" := h2 f (List.mem_cons_self f files)
    have ih := filtered_paths_of_readable count sha secrets_report files
      (fun g hg => h1 g (List.mem_cons_of_mem f hg))
      (fun g hg => h2 g (List.mem_cons_of_mem f hg))
    rw [List.filterMap_cons, hc, Option.map_some', List.filter_cons,
      if_pos (notHeaderEntry_metaOfFile count sha secrets_report f c hrel),
      List.map_cons, ih, List.map_cons]
    rfl

/-- The reported total file count is the length of the non-header metadata
sequence. -/
theorem total_file_count_eq_length (parts_meta : List (List FileMeta)) :
    total_file_count parts_meta = (metaFilePaths parts_meta).length := by
  rw [metaFilePaths, List.length_map, ← List.countP_eq_length_filter, total_file_count,
    List.countP_flatten]

/-- Claim C6 (counterexample): a run whose single input file fails to read
records no file at all in the parts metadata, so the recorded sequence
differs from the assembler's input sequence (the File Filter's output) and
the reported count is 0, not 1 — the claim fails for runs with read
failures, which the spec's own error policy prescribes to skip. -/
theorem c6_counterexample :
    metaFilePaths (generate_context_run (fun _ => 0) (fun s => s) [] 0 0 true ""
        [⟨"/r/a.py", "a.py", 5, none⟩]).core.parts_meta = []
    ∧ ([] : List String) ≠ [(⟨"/r/a.py", "a.py", 5, none⟩ : SrcFile).rel]
    ∧ total_file_count (generate_context_run (fun _ => 0) (fun s => s) [] 0 0 true ""
        [⟨"/r/a.py", "a.py", 5, none⟩]).core.parts_meta = 0 := by
  exact ⟨rfl, by decide, rfl⟩

/-- Claim C6 (amended): for every run in which every included file is read
successfully (and no file carries the reserved header path), the sequence
of files recorded across all parts' metadata — the synthetic header entry
excluded — equals exactly the file sequence handed to the assembler (the
File Filter's output, in order, when interactive selection is off): no
duplication, no drop, no reordering; and the reported total file count
equals that sequence's length. -/
theorem c6_amended_no_silent_drop (count : String → Nat) (sha : String → String)
    (secrets_report : List (String × List Finding)) (max_tokens warn_tokens : Nat)
    (prompt_no_header : Bool) (tree_view : String) (files : List SrcFile)
    (hread : ∀ f ∈ files, f.content.isSome = true)
    (hsent : ∀ f ∈ files, f.rel ≠ "_aicontext_header_") :
    metaFilePaths (generate_context_run count sha secrets_report max_tokens warn_tokens
        prompt_no_header tree_view files).core.parts_meta = files.map SrcFile.rel
    ∧ total_file_count (generate_context_run count sha secrets_report max_tokens warn_tokens
        prompt_no_header tree_view files).core.parts_meta = files.length := by
  have hmain : metaFilePaths (generate_context_run count sha secrets_report max_tokens
      warn_tokens prompt_no_header tree_view files).core.parts_meta = files.map SrcFile.rel := by
    rw [metaFilePaths, run_parts_meta_flatten, foldl_processFileCore_collect,
      List.filter_append]
    have hhdr : (collectMeta (initCore count sha prompt_no_header tree_view)).filter
        notHeaderEntry = [] := by
      simp [collectMeta, initCore, notHeaderEntry]
    rw [hhdr, List.nil_append]
    exact filtered_paths_of_readable count sha secrets_report files hread hsent
  have htot : total_file_count (generate_context_run count sha secrets_report max_tokens
      warn_tokens prompt_no_header tree_view files).core.parts_meta
      = (metaFilePaths (generate_context_run count sha secrets_report max_tokens warn_tokens
          prompt_no_header tree_view files).core.parts_meta).length :=
    total_file_count_eq_length _
  exact ⟨hmain, by rw [htot, hmain, List.length_map]⟩

/-- Claim C6 witness: a concrete two-file all-readable run. -/
theorem c6_witness :
    metaFilePaths (generate_context_run (fun _ => 0) (fun s => s) [] 0 0 true ""
        [⟨"/r/a.py", "a.py", 1, some "A"⟩, ⟨"/r/b.py", "b.py", 1, some "B"⟩]).core.parts_meta
      = ([⟨"/r/a.py", "a.py", 1, some "A"⟩,
          ⟨"/r/b.py", "b.py", 1, some "B"⟩] : List SrcFile).map SrcFile.rel
    ∧ total_file_count (generate_context_run (fun _ => 0) (fun s => s) [] 0 0 true ""
        [⟨"/r/a.py", "a.py", 1, some "A"⟩, ⟨"/r/b.py", "b.py", 1, some "B"⟩]).core.parts_meta
      = ([⟨"/r/a.py", "a.py", 1, some "A"⟩,
          ⟨"/r/b.py", "b.py", 1, some "B"⟩] : List SrcFile).length :=
  c6_amended_no_silent_drop (fun _ => 0) (fun s => s) [] 0 0 true ""
    [⟨"/r/a.py", "a.py", 1, some "A"⟩, ⟨"/r/b.py", "b.py", 1, some "B"⟩]
    (by decide) (by decide)

/-! ### Claim C4: budget finalization policy and part invariants -/

/-- A nonempty string stays nonempty when something is appended on the
left. -/
theorem str_ne_empty_of_append_right (a b : String) (hb : b ≠ "") : a ++ b ≠ "" := by
  intro h
  apply hb
  have hd : (a ++ b).data = ([] : List Char) := by rw [h]
  rw [String.data_append] at hd
  rcases List.append_eq_nil.mp hd with ⟨_, h2⟩
  cases b with
  | mk d => simp_all

/-- A nonempty string stays nonempty when something is appended on the
right. -/
theorem str_ne_empty_of_append_left (a b : String) (ha : a ≠ "") : a ++ b ≠ "" := by
  intro h
  apply ha
  have hd : (a ++ b).data = ([] : List Char) := by rw [h]
  rw [String.data_append] at hd
  rcases List.append_eq_nil.mp hd with ⟨h1, _⟩
  cases a with
  | mk d => simp_all

/-- A file block always contains at least its delimiters. -/
theorem fileBlock_ne_empty (rel content : String) : fileBlock rel content ≠ "" := by
  unfold fileBlock
  apply str_ne_empty_of_append_right
  decide

/-- The preliminary text always contains at least the opening sentinel. -/
theorem preliminaryText_ne_empty (prompt_no_header : Bool) (tree_view : String) :
    preliminaryText prompt_no_header tree_view ≠ "" := by
  unfold preliminaryText
  apply str_ne_empty_of_append_right
  decide

/-- A finalized part is within budget, or it consists of a single block
whose own cost exceeds the budget. -/
def partOk (max_tokens : Nat) (tc : Nat) (ml : List FileMeta) : Prop :=
  tc ≤ max_tokens ∨ (ml.length = 1 ∧ ∀ m ∈ ml, max_tokens < m.estimated_tokens)

/-- Loop invariant when the counter charges every nonempty text at least
one token (the tiktoken regime): completed parts satisfy `partOk`, parts
are never empty (neither text nor metadata), and the current accumulator
is consistent (its count is the sum of its entries' costs, every entry
costs at least 1, and it satisfies `partOk` itself). -/
def AsmInvPos (max_tokens : Nat) (st : AsmCore) : Prop :=
  st.token_counts.length = st.context_parts.length ∧
  st.parts_meta.length = st.context_parts.length ∧
  (∀ pr ∈ st.token_counts.zip st.parts_meta, partOk max_tokens pr.1 pr.2) ∧
  (∀ p ∈ st.context_parts, p ≠ "") ∧
  (∀ ml ∈ st.parts_meta, ml ≠ []) ∧
  st.cur_meta ≠ [] ∧
  st.buf ≠ "" ∧
  st.cur_tokens = (st.cur_meta.map (fun m => m.estimated_tokens)).sum ∧
  (∀ m ∈ st.cur_meta, 1 ≤ m.estimated_tokens) ∧
  partOk max_tokens st.cur_tokens st.cur_meta

/-- One loop step preserves the positive-regime invariant. -/
theorem processFileCore_inv_pos (count : String → Nat) (sha : String → String)
    (secrets_report : List (String × List Finding)) (max_tokens warn_tokens : Nat)
    (hmx : max_tokens ≠ 0) (hpos : ∀ s, s ≠ "" → 1 ≤ count s)
    (st : AsmCore) (f : SrcFile) (hinv : AsmInvPos max_tokens st) :
    AsmInvPos max_tokens
      (processFileCore count sha secrets_report max_tokens warn_tokens st f) := by
  obtain ⟨hl1, hl2, hparts, hpne, hmne, hcne, hbne, hsum, hent, hcur⟩ := hinv
  cases hf : f.content with
  | none =>
    exact (by simpa [processFileCore, hf] using
      ⟨hl1, hl2, hparts, hpne, hmne, hcne, hbne, hsum, hent, hcur⟩)
  | some content =>
    set b := count (fileBlock f.rel content) with hbdef
    have hb1 : 1 ≤ b := hpos _ (fileBlock_ne_empty f.rel content)
    have hcurpos : 0 < st.cur_tokens := by
      obtain ⟨m, hm⟩ := List.exists_mem_of_ne_nil st.cur_meta hcne
      have h2 : m.estimated_tokens ≤ (st.cur_meta.map (fun m => m.estimated_tokens)).sum :=
        List.single_le_sum (fun x _ => Nat.zero_le x) _ (List.mem_map_of_mem _ hm)
      have h1 := hent m hm
      omega
    have hlzip : st.token_counts.length = st.parts_meta.length := by rw [hl1, hl2]
    simp only [processFileCore, hf]
    split
    case isTrue hcond =>
      have hMain : AsmInvPos max_tokens
          ⟨st.context_parts ++ [st.buf], st.token_counts ++ [st.cur_tokens],
           st.parts_meta ++ [st.cur_meta], "" ++ fileBlock f.rel content, 0 + b,
           [] ++ [metaOfFile count sha secrets_report f content], false⟩ := by
        refine ⟨?_, ?_, ?_, ?_, ?_, ?_, ?_, ?_, ?_, ?_⟩
        · simp [hl1]
        · simp [hl2]
        · intro pr hpr
          rw [show (st.token_counts ++ [st.cur_tokens]).zip (st.parts_meta ++ [st.cur_meta])
              = st.token_counts.zip st.parts_meta ++ [(st.cur_tokens, st.cur_meta)] from by
            rw [List.zip_append hlzip]; rfl] at hpr
          rcases List.mem_append.mp hpr with h | h
          · exact hparts pr h
          · rcases List.mem_singleton.mp h with rfl
            exact hcur
        · intro p hp
          rcases List.mem_append.mp hp with h | h
          · exact hpne p h
          · rcases List.mem_singleton.mp h with rfl
            exact hbne
        · intro ml hml
          rcases List.mem_append.mp hml with h | h
          · exact hmne ml h
          · rcases List.mem_singleton.mp h with rfl
            exact hcne
        · simp
        · exact str_ne_empty_of_append_right _ _ (fileBlock_ne_empty f.rel content)
        · simp [metaOfFile]
        · intro m hm
          rcases List.mem_singleton.mp (by simpa using hm) with rfl
          simpa [metaOfFile] using hb1
        · rcases le_or_lt b max_tokens with h | h
          · exact Or.inl (by simpa using h)
          · refine Or.inr ⟨by simp, ?_⟩
            intro m hm
            rcases List.mem_singleton.mp (by simpa using hm) with rfl
            simpa [metaOfFile] using h
      split <;> exact hMain
    case isFalse hcond =>
      have hle : st.cur_tokens + b ≤ max_tokens := by
        rcases Nat.lt_or_ge max_tokens (st.cur_tokens + b) with h | h
        · exact absurd ⟨hmx, h, hcurpos⟩ hcond
        · exact h
      have hMain : AsmInvPos max_tokens
          ⟨st.context_parts, st.token_counts, st.parts_meta,
           st.buf ++ fileBlock f.rel content, st.cur_tokens + b,
           st.cur_meta ++ [metaOfFile count sha secrets_report f content], false⟩ := by
        refine ⟨hl1, hl2, hparts, hpne, hmne, ?_, ?_, ?_, ?_, Or.inl hle⟩
        · simp
        · exact str_ne_empty_of_append_left _ _ hbne
        · simp [hsum, metaOfFile]
        · intro m hm
          rcases List.mem_append.mp hm with h | h
          · exact hent m h
          · rcases List.mem_singleton.mp h with rfl
            simpa [metaOfFile] using hb1
      split <;> exact hMain

/-- The preliminary text is charged at least one token in the positive
regime, so the initial state satisfies the invariant. -/
theorem initCore_inv_pos (count : String → Nat) (sha : String → String)
    (max_tokens : Nat) (prompt_no_header : Bool) (tree_view : String)
    (hpos : ∀ s, s ≠ "" → 1 ≤ count s) :
    AsmInvPos max_tokens (initCore count sha prompt_no_header tree_view) := by
  have h1 : 1 ≤ count (preliminaryText prompt_no_header tree_view) :=
    hpos _ (preliminaryText_ne_empty prompt_no_header tree_view)
  refine ⟨rfl, rfl, by simp [initCore], by simp [initCore], by simp [initCore],
    by simp [initCore], preliminaryText_ne_empty prompt_no_header tree_view,
    by simp [initCore], ?_, ?_⟩
  · intro m hm
    rcases List.mem_singleton.mp (by simpa [initCore] using hm) with rfl
    simpa using h1
  · rcases le_or_lt (count (preliminaryText prompt_no_header tree_view)) max_tokens with h | h
    · exact Or.inl (by simpa [initCore] using h)
    · refine Or.inr ⟨by simp [initCore], ?_⟩
      intro m hm
      rcases List.mem_singleton.mp (by simpa [initCore] using hm) with rfl
      simpa using h

/-- The whole loop preserves the positive-regime invariant. -/
theorem foldl_inv_pos (count : String → Nat) (sha : String → String)
    (secrets_report : List (String × List Finding)) (max_tokens warn_tokens : Nat)
    (hmx : max_tokens ≠ 0) (hpos : ∀ s, s ≠ "" → 1 ≤ count s) :
    ∀ (l : List SrcFile) (st : AsmCore), AsmInvPos max_tokens st →
      AsmInvPos max_tokens
        (l.foldl (processFileCore count sha secrets_report max_tokens warn_tokens) st)
  | [], _, h => h
  | f :: l, st, h =>
    foldl_inv_pos count sha secrets_report max_tokens warn_tokens hmx hpos l _
      (processFileCore_inv_pos count sha secrets_report max_tokens warn_tokens hmx hpos st f h)

/-- Loop invariant in the disabled-counting regime (the counter returns 0
for everything): all counts stay 0 and parts are never empty. -/
def AsmInvZero (st : AsmCore) : Prop :=
  st.token_counts.length = st.context_parts.length ∧
  st.parts_meta.length = st.context_parts.length ∧
  (∀ c ∈ st.token_counts, c = 0) ∧
  (∀ p ∈ st.context_parts, p ≠ "") ∧
  (∀ ml ∈ st.parts_meta, ml ≠ []) ∧
  st.cur_meta ≠ [] ∧
  st.buf ≠ "" ∧
  st.cur_tokens = 0

/-- One loop step preserves the zero-regime invariant (no split can ever
fire since the running count stays 0). -/
theorem processFileCore_inv_zero (count : String → Nat) (sha : String → String)
    (secrets_report : List (String × List Finding)) (max_tokens warn_tokens : Nat)
    (hzero : ∀ s, count s = 0)
    (st : AsmCore) (f : SrcFile) (hinv : AsmInvZero st) :
    AsmInvZero (processFileCore count sha secrets_report max_tokens warn_tokens st f) := by
  obtain ⟨hl1, hl2, hcz, hpne, hmne, hcne, hbne, hct⟩ := hinv
  cases hf : f.content with
  | none =>
    exact (by simpa [processFileCore, hf] using ⟨hl1, hl2, hcz, hpne, hmne, hcne, hbne, hct⟩)
  | some content =>
    have hMain : AsmInvZero
        ⟨st.context_parts, st.token_counts, st.parts_meta,
         st.buf ++ fileBlock f.rel content,
         st.cur_tokens + count (fileBlock f.rel content),
         st.cur_meta ++ [metaOfFile count sha secrets_report f content], false⟩ := by
      refine ⟨hl1, hl2, hcz, hpne, hmne, by simp, str_ne_empty_of_append_left _ _ hbne, ?_⟩
      simp [hct, hzero]
    have hnotsplit : ¬(max_tokens ≠ 0 ∧
        max_tokens < st.cur_tokens + count (fileBlock f.rel content) ∧ 0 < st.cur_tokens) := by
      rw [hct]
      rintro ⟨_, _, h⟩
      exact absurd h (by simp)
    simp only [processFileCore, hf, if_neg hnotsplit]
    split <;> exact hMain

/-- The whole loop preserves the zero-regime invariant. -/
theorem foldl_inv_zero (count : String → Nat) (sha : String → String)
    (secrets_report : List (String × List Finding)) (max_tokens warn_tokens : Nat)
    (hzero : ∀ s, count s = 0) :
    ∀ (l : List SrcFile) (st : AsmCore), AsmInvZero st →
      AsmInvZero
        (l.foldl (processFileCore count sha secrets_report max_tokens warn_tokens) st)
  | [], _, h => h
  | f :: l, st, h =>
    foldl_inv_zero count sha secrets_report max_tokens warn_tokens hzero l _
      (processFileCore_inv_zero count sha secrets_report max_tokens warn_tokens hzero st f h)

/-- The initial state satisfies the zero-regime invariant. -/
theorem initCore_inv_zero (count : String → Nat) (sha : String → String)
    (prompt_no_header : Bool) (tree_view : String) (hzero : ∀ s, count s = 0) :
    AsmInvZero (initCore count sha prompt_no_header tree_view) := by
  refine ⟨rfl, rfl, by simp [initCore], by simp [initCore], by simp [initCore],
    by simp [initCore], preliminaryText_ne_empty prompt_no_header tree_view, ?_⟩
  simp [initCore, hzero]

/-- What both regimes guarantee about the loop state. -/
def AsmInvCommon (max_tokens : Nat) (st : AsmCore) : Prop :=
  st.token_counts.length = st.context_parts.length ∧
  st.parts_meta.length = st.context_parts.length ∧
  (∀ pr ∈ st.token_counts.zip st.parts_meta, partOk max_tokens pr.1 pr.2) ∧
  (∀ p ∈ st.context_parts, p ≠ "") ∧
  (∀ ml ∈ st.parts_meta, ml ≠ []) ∧
  st.cur_meta ≠ [] ∧
  partOk max_tokens st.cur_tokens st.cur_meta

/-- The positive-regime invariant implies the common one. -/
theorem asmInvPos_common (max_tokens : Nat) (st : AsmCore) (h : AsmInvPos max_tokens st) :
    AsmInvCommon max_tokens st := by
  obtain ⟨hl1, hl2, hparts, hpne, hmne, hcne, _, _, _, hcur⟩ := h
  exact ⟨hl1, hl2, hparts, hpne, hmne, hcne, hcur⟩

/-- The zero-regime invariant implies the common one (a zero count is
within any budget). -/
theorem asmInvZero_common (max_tokens : Nat) (st : AsmCore) (h : AsmInvZero st) :
    AsmInvCommon max_tokens st := by
  obtain ⟨hl1, hl2, hcz, hpne, hmne, hcne, _, hct⟩ := h
  refine ⟨hl1, hl2, ?_, hpne, hmne, hcne, ?_⟩
  · intro pr hpr
    have hmem : pr.1 ∈ st.token_counts := (List.of_mem_zip hpr).1
    exact Or.inl (by rw [hcz pr.1 hmem]; exact Nat.zero_le _)
  · exact Or.inl (by rw [hct]; exact Nat.zero_le _)

/-- Pushing the common loop invariant through the final (always-taken)
finalization gives the per-part guarantees of the finished run. -/
theorem run_inv_common (count : String → Nat) (sha : String → String)
    (secrets_report : List (String × List Finding)) (max_tokens warn_tokens : Nat)
    (prompt_no_header : Bool) (tree_view : String) (files : List SrcFile)
    (hfold : AsmInvCommon max_tokens
      (files.foldl (processFileCore count sha secrets_report max_tokens warn_tokens)
        (initCore count sha prompt_no_header tree_view))) :
    let R := (generate_context_run count sha secrets_report max_tokens warn_tokens
      prompt_no_header tree_view files).core
    R.token_counts.length = R.context_parts.length ∧
    R.parts_meta.length = R.context_parts.length ∧
    (∀ pr ∈ R.token_counts.zip R.parts_meta, partOk max_tokens pr.1 pr.2) ∧
    (∀ p ∈ R.context_parts, p ≠ "") ∧
    (∀ ml ∈ R.parts_meta, ml ≠ []) := by
  obtain ⟨hl1, hl2, hparts, hpne, hmne, hcne, hcur⟩ := hfold
  intro R
  have hR : R = finalizePart
      { (files.foldl (processFileCore count sha secrets_report max_tokens warn_tokens)
          (initCore count sha prompt_no_header tree_view)) with
        buf := (files.foldl (processFileCore count sha secrets_report max_tokens warn_tokens)
          (initCore count sha prompt_no_header tree_view)).buf ++ ">>>\n" } := by
    show (generate_context_run count sha secrets_report max_tokens warn_tokens
      prompt_no_header tree_view files).core = _
    unfold generate_context_run
    set stt := files.foldl (processFile count sha secrets_report max_tokens warn_tokens)
      { core := initCore count sha prompt_no_header tree_view, read_errors := [] } with hstt
    have hlen : 0 < (stt.core.buf ++ ">>>\n").length := by
      rw [String.length_append]
      have h4 : (">>>\n" : String).length = 4 := rfl
      omega
    simp only [hlen, if_pos]
    rw [show stt.core = files.foldl
        (processFileCore count sha secrets_report max_tokens warn_tokens)
        (initCore count sha prompt_no_header tree_view) from
      foldl_processFile_core count sha secrets_report max_tokens warn_tokens files _]
  set F := files.foldl (processFileCore count sha secrets_report max_tokens warn_tokens)
    (initCore count sha prompt_no_header tree_view) with hF
  have hlzip : F.token_counts.length = F.parts_meta.length := by rw [hl1, hl2]
  rw [hR]
  refine ⟨by simp [finalizePart, hl1], by simp [finalizePart, hl2], ?_, ?_, ?_⟩
  · intro pr hpr
    rw [show (finalizePart { F with buf := F.buf ++ ">>>\n" }).token_counts.zip
        (finalizePart { F with buf := F.buf ++ ">>>\n" }).parts_meta
        = F.token_counts.zip F.parts_meta ++ [(F.cur_tokens, F.cur_meta)] from by
      simp only [finalizePart]
      rw [List.zip_append hlzip]
      rfl] at hpr
    rcases List.mem_append.mp hpr with h | h
    · exact hparts pr h
    · rcases List.mem_singleton.mp h with rfl
      exact hcur
  · intro p hp
    rcases (by simpa [finalizePart] using hp : p ∈ F.context_parts ∨ p = F.buf ++ ">>>\n")
        with h | rfl
    · exact hpne p h
    · exact str_ne_empty_of_append_right _ _ (by decide)
  · intro ml hml
    rcases (by simpa [finalizePart] using hml : ml ∈ F.parts_meta ∨ ml = F.cur_meta)
        with h | rfl
    · exact hmne ml h
    · exact hcne

/-- The split-before-insert policy: during the processing of one readable
file, a part is finalized (the completed-part list changes) iff the
running count is positive and adding the block's cost would exceed the
configured budget. -/
theorem processFileCore_split_iff (count : String → Nat) (sha : String → String)
    (secrets_report : List (String × List Finding)) (max_tokens warn_tokens : Nat)
    (hmx : max_tokens ≠ 0) (st : AsmCore) (f : SrcFile) (cont : String)
    (hf : f.content = some cont) :
    (processFileCore count sha secrets_report max_tokens warn_tokens st f).context_parts
        ≠ st.context_parts
      ↔ (0 < st.cur_tokens ∧ max_tokens < st.cur_tokens + count (fileBlock f.rel cont)) := by
  simp only [processFileCore, hf]
  split
  case isTrue hcond =>
    constructor
    · intro _
      exact ⟨hcond.2.2, hcond.2.1⟩
    · intro _
      split <;>
      · intro h
        have hlen := congrArg List.length h
        simp [finalizePart] at hlen
  case isFalse hcond =>
    constructor
    · intro hne
      exact absurd (by split <;> rfl) hne
    · intro h
      exact (hcond ⟨hmx, h.2, h.1⟩).elim

/-- Claim C4: with a token budget configured (`max_tokens ≠ 0`) and the
counter in one of the program's two regimes (tiktoken charges every
nonempty text at least one token; the disabled counter charges zero for
everything), the assembler finalizes the current part before inserting a
file block iff the part's running count is positive and adding the
block's cost would exceed the budget; consequently every finalized part
either stays within the budget or consists of a single block whose own
cost exceeds it, and no finalized part is empty (neither its text nor its
metadata). -/
theorem c4_budget_finalization_invariant (count : String → Nat) (sha : String → String)
    (secrets_report : List (String × List Finding)) (max_tokens warn_tokens : Nat)
    (prompt_no_header : Bool) (tree_view : String) (files : List SrcFile)
    (hmx : max_tokens ≠ 0)
    (hc : (∀ s, s ≠ "" → 1 ≤ count s) ∨ (∀ s, count s = 0)) :
    (∀ (st : AsmCore) (f : SrcFile) (cont : String), f.content = some cont →
       ((processFileCore count sha secrets_report max_tokens warn_tokens st f).context_parts
           ≠ st.context_parts
         ↔ (0 < st.cur_tokens ∧ max_tokens < st.cur_tokens + count (fileBlock f.rel cont))))
    ∧ ((generate_context_run count sha secrets_report max_tokens warn_tokens
        prompt_no_header tree_view files).core.token_counts.length
      = (generate_context_run count sha secrets_report max_tokens warn_tokens
        prompt_no_header tree_view files).core.context_parts.length)
    ∧ ((generate_context_run count sha secrets_report max_tokens warn_tokens
        prompt_no_header tree_view files).core.parts_meta.length
      = (generate_context_run count sha secrets_report max_tokens warn_tokens
        prompt_no_header tree_view files).core.context_parts.length)
    ∧ (∀ pr ∈ (generate_context_run count sha secrets_report max_tokens warn_tokens
          prompt_no_header tree_view files).core.token_counts.zip
        (generate_context_run count sha secrets_report max_tokens warn_tokens
          prompt_no_header tree_view files).core.parts_meta,
        pr.1 ≤ max_tokens ∨ (pr.2.length = 1 ∧ ∀ m ∈ pr.2, max_tokens < m.estimated_tokens))
    ∧ (∀ p ∈ (generate_context_run count sha secrets_report max_tokens warn_tokens
        prompt_no_header tree_view files).core.context_parts, p ≠ "")
    ∧ (∀ ml ∈ (generate_context_run count sha secrets_report max_tokens warn_tokens
        prompt_no_header tree_view files).core.parts_meta, ml ≠ []) := by
  have hfold : AsmInvCommon max_tokens
      (files.foldl (processFileCore count sha secrets_report max_tokens warn_tokens)
        (initCore count sha prompt_no_header tree_view)) := by
    rcases hc with hpos | hzero
    · exact asmInvPos_common max_tokens _
        (foldl_inv_pos count sha secrets_report max_tokens warn_tokens hmx hpos files _
          (initCore_inv_pos count sha max_tokens prompt_no_header tree_view hpos))
    · exact asmInvZero_common max_tokens _
        (foldl_inv_zero count sha secrets_report max_tokens warn_tokens hzero files _
          (initCore_inv_zero count sha prompt_no_header tree_view hzero))
  obtain ⟨h1, h2, h3, h4, h5⟩ := run_inv_common count sha secrets_report max_tokens
    warn_tokens prompt_no_header tree_view files hfold
  exact ⟨fun st f cont hf => processFileCore_split_iff count sha secrets_report
      max_tokens warn_tokens hmx st f cont hf,
    h1, h2, fun pr hpr => h3 pr hpr, h4, h5⟩

/-- Claim C4 witness: the theorem instantiated at the disabled counter,
budget 5 and a concrete one-file run. -/
theorem c4_witness :
    (∀ (st : AsmCore) (f : SrcFile) (cont : String), f.content = some cont →
       ((processFileCore (fun _ => 0) (fun s => s) [] 5 0 st f).context_parts
           ≠ st.context_parts
         ↔ (0 < st.cur_tokens ∧ 5 < st.cur_tokens + 0)))
    ∧ ((generate_context_run (fun _ => 0) (fun s => s) [] 5 0 true ""
        [⟨"/r/a.py", "a.py", 1, some "A"⟩]).core.token_counts.length
      = (generate_context_run (fun _ => 0) (fun s => s) [] 5 0 true ""
        [⟨"/r/a.py", "a.py", 1, some "A"⟩]).core.context_parts.length)
    ∧ ((generate_context_run (fun _ => 0) (fun s => s) [] 5 0 true ""
        [⟨"/r/a.py", "a.py", 1, some "A"⟩]).core.parts_meta.length
      = (generate_context_run (fun _ => 0) (fun s => s) [] 5 0 true ""
        [⟨"/r/a.py", "a.py", 1, some "A"⟩]).core.context_parts.length)
    ∧ (∀ pr ∈ (generate_context_run (fun _ => 0) (fun s => s) [] 5 0 true ""
          [⟨"/r/a.py", "a.py", 1, some "A"⟩]).core.token_counts.zip
        (generate_context_run (fun _ => 0) (fun s => s) [] 5 0 true ""
          [⟨"/r/a.py", "a.py", 1, some "A"⟩]).core.parts_meta,
        pr.1 ≤ 5 ∨ (pr.2.length = 1 ∧ ∀ m ∈ pr.2, 5 < m.estimated_tokens))
    ∧ (∀ p ∈ (generate_context_run (fun _ => 0) (fun s => s) [] 5 0 true ""
        [⟨"/r/a.py", "a.py", 1, some "A"⟩]).core.context_parts, p ≠ "")
    ∧ (∀ ml ∈ (generate_context_run (fun _ => 0) (fun s => s) [] 5 0 true ""
        [⟨"/r/a.py", "a.py", 1, some "A"⟩]).core.parts_meta, ml ≠ []) :=
  c4_budget_finalization_invariant (fun _ => 0) (fun s => s) [] 5 0 true ""
    [⟨"/r/a.py", "a.py", 1, some "A"⟩] (by decide) (Or.inr fun _ => rfl)

/-! ### Claim C9: deterministic tree rendering -/

def pathHeads (l : List (List String)) : List String := l.filterMap List.head?

def tailsOf (k : String) (l : List (List String)) : List (List String) :=
  l.filterMap (fun p => match p with
    | [] => none
    | h :: t => if h = k then some t else none)

def listMeasure (l : List (List String)) : Nat := (l.map List.length).sum + l.length

def firstOcc : List String → List String
  | [] => []
  | x :: xs => x :: firstOcc (xs.filter (fun y => y ≠ x))
termination_by l => l.length
decreasing_by
  simp only [List.length_cons]
  exact Nat.lt_succ_of_le (List.length_filter_le _ _)

theorem mem_firstOcc : ∀ (l : List String) (a : String), a ∈ firstOcc l ↔ a ∈ l
  | [], a => by simp [firstOcc]
  | x :: xs, a => by
    rw [firstOcc]
    by_cases hax : a = x
    · subst hax
      simp
    · simp only [List.mem_cons, hax, false_or]
      rw [mem_firstOcc (xs.filter (fun y => y ≠ x)) a]
      simp [List.mem_filter, hax]
termination_by l _ => l.length
decreasing_by
  simp only [List.length_cons]
  exact Nat.lt_succ_of_le (List.length_filter_le _ _)

theorem firstOcc_nodup : ∀ (l : List String), (firstOcc l).Nodup
  | [] => by simp [firstOcc]
  | x :: xs => by
    rw [firstOcc]
    refine List.nodup_cons.mpr ⟨?_, firstOcc_nodup (xs.filter (fun y => y ≠ x))⟩
    intro hx
    have := (mem_firstOcc _ x).mp hx
    simp [List.mem_filter] at this
termination_by l => l.length
decreasing_by
  simp only [List.length_cons]
  exact Nat.lt_succ_of_le (List.length_filter_le _ _)

theorem firstOcc_append_mem : ∀ (H : List String) (s : String), s ∈ H →
    firstOcc (H ++ [s]) = firstOcc H
  | [], s, h => by simp at h
  | x :: H, s, h => by
    rw [List.cons_append, firstOcc, firstOcc, List.filter_append]
    by_cases hsx : s = x
    · subst hsx
      simp
    · have hs : s ∈ H := by
        rcases List.mem_cons.mp h with h' | h'
        · exact absurd h' hsx
        · exact h'
      have hsf : s ∈ H.filter (fun y => y ≠ x) := by
        simp [List.mem_filter, hs, hsx]
      rw [show (([s] : List String).filter (fun y => y ≠ x)) = [s] from by simp [hsx]]
      rw [firstOcc_append_mem (H.filter (fun y => y ≠ x)) s hsf]
termination_by H _ _ => H.length
decreasing_by
  simp only [List.length_cons]
  exact Nat.lt_succ_of_le (List.length_filter_le _ _)

theorem firstOcc_append_not_mem : ∀ (H : List String) (s : String), s ∉ H →
    firstOcc (H ++ [s]) = firstOcc H ++ [s]
  | [], s, _ => by simp [firstOcc]
  | x :: H, s, h => by
    have hsx : s ≠ x := fun e => h (e ▸ List.mem_cons_self x H)
    have hs : s ∉ H := fun hmem => h (List.mem_cons_of_mem x hmem)
    rw [List.cons_append, firstOcc, firstOcc, List.filter_append]
    rw [show (([s] : List String).filter (fun y => y ≠ x)) = [s] from by simp [hsx]]
    rw [firstOcc_append_not_mem (H.filter (fun y => y ≠ x)) s
      (fun hmem => hs (List.mem_filter.mp hmem).1)]
    rfl
termination_by H _ _ => H.length
decreasing_by
  simp only [List.length_cons]
  exact Nat.lt_succ_of_le (List.length_filter_le _ _)

theorem firstOcc_perm {H H' : List String} (h : H.Perm H') : (firstOcc H).Perm (firstOcc H') := by
  have h1 := firstOcc_nodup H
  have h2 := firstOcc_nodup H'
  rw [List.perm_ext_iff_of_nodup h1 h2]
  intro a
  rw [mem_firstOcc, mem_firstOcc]
  exact h.mem_iff

theorem tailsOf_measure (k : String) : ∀ (l : List (List String)),
    listMeasure (tailsOf k l) ≤ listMeasure l ∧
      (k ∈ pathHeads l → listMeasure (tailsOf k l) < listMeasure l)
  | [] => ⟨le_refl _, by simp [pathHeads]⟩
  | [] :: l => by
    have ih := tailsOf_measure k l
    have he : tailsOf k ([] :: l) = tailsOf k l := by simp [tailsOf]
    have hh : pathHeads ([] :: l) = pathHeads l := by simp [pathHeads]
    have hm : listMeasure ([] :: l) = listMeasure l + 1 := by
      simp [listMeasure]
      omega
    rw [he, hh, hm]
    have h1 := ih.1
    exact ⟨by omega, fun _ => by omega⟩
  | (h :: t) :: l => by
    have ih := tailsOf_measure k l
    have hm : listMeasure ((h :: t) :: l) = t.length + 2 + listMeasure l := by
      simp [listMeasure, List.length_cons]
      omega
    by_cases hk : h = k
    · have he : tailsOf k ((h :: t) :: l) = t :: tailsOf k l := by
        simp [tailsOf, hk]
      have hm2 : listMeasure (t :: tailsOf k l) = t.length + 1 + listMeasure (tailsOf k l) := by
        simp [listMeasure]
        omega
      rw [he, hm, hm2]
      constructor
      · omega
      · intro _
        omega
    · have he : tailsOf k ((h :: t) :: l) = tailsOf k l := by
        simp [tailsOf, hk]
      have hh : pathHeads ((h :: t) :: l) = h :: pathHeads l := by simp [pathHeads]
      rw [he, hm, hh]
      refine ⟨by omega, ?_⟩
      intro hmem
      rcases List.mem_cons.mp hmem with h' | h'
      · exact absurd h'.symm hk
      · have := ih.2 h'
        omega

def groupBuild (l : List (List String)) : DirTree :=
  .node ((firstOcc (pathHeads l)).attach.map
    (fun k => (k.1, groupBuild (tailsOf k.1 l))))
termination_by listMeasure l
decreasing_by
  exact (tailsOf_measure k.1 l).2 ((mem_firstOcc _ _).mp k.2)

theorem groupBuild_eq (l : List (List String)) :
    groupBuild l = .node ((firstOcc (pathHeads l)).map
      (fun k => (k, groupBuild (tailsOf k l)))) := by
  rw [groupBuild]
  congr 1
  rw [show (fun (k : {x // x ∈ firstOcc (pathHeads l)}) => (k.1, groupBuild (tailsOf k.1 l)))
      = ((fun k => (k, groupBuild (tailsOf k l))) ∘ Subtype.val) from rfl]
  rw [← List.map_map, List.attach_map_subtype_val]

theorem groupBuild_nil : groupBuild [] = .node [] := by
  rw [groupBuild_eq]
  simp [pathHeads, firstOcc]

theorem groupBuild_congr (l l' : List (List String))
    (h1 : pathHeads l = pathHeads l') (h2 : ∀ k, tailsOf k l = tailsOf k l') :
    groupBuild l = groupBuild l' := by
  rw [groupBuild_eq, groupBuild_eq, h1]
  congr 1
  apply List.map_congr_left
  intro k _
  rw [h2 k]

theorem pathHeads_append_nil (l : List (List String)) :
    pathHeads (l ++ [[]]) = pathHeads l := by
  simp [pathHeads]

theorem tailsOf_append_nil (k : String) (l : List (List String)) :
    tailsOf k (l ++ [[]]) = tailsOf k l := by
  simp [tailsOf]

theorem pathHeads_append_cons (l : List (List String)) (s : String) (rest : List String) :
    pathHeads (l ++ [s :: rest]) = pathHeads l ++ [s] := by
  simp [pathHeads]

theorem tailsOf_append_cons (k : String) (l : List (List String)) (s : String)
    (rest : List String) :
    tailsOf k (l ++ [s :: rest]) = tailsOf k l ++ (if s = k then [rest] else []) := by
  by_cases h : s = k <;> simp [tailsOf, h]

theorem tailsOf_eq_nil_of_not_mem (k : String) : ∀ (l : List (List String)),
    k ∉ pathHeads l → tailsOf k l = []
  | [], _ => rfl
  | [] :: l, h => by
    rw [show tailsOf k ([] :: l) = tailsOf k l from by simp [tailsOf]]
    exact tailsOf_eq_nil_of_not_mem k l (by simpa [pathHeads] using h)
  | (x :: t) :: l, h => by
    have hph : pathHeads ((x :: t) :: l) = x :: pathHeads l := by simp [pathHeads]
    have hx : x ≠ k := by
      intro e
      exact h (hph ▸ (e ▸ List.mem_cons_self x (pathHeads l)))
    rw [show tailsOf k ((x :: t) :: l) = tailsOf k l from by simp [tailsOf, hx]]
    refine tailsOf_eq_nil_of_not_mem k l ?_
    intro hmem
    exact h (hph ▸ List.mem_cons_of_mem x hmem)

theorem groupBuild_children_keys (l : List (List String)) :
    (groupBuild l).children.map Prod.fst = firstOcc (pathHeads l) := by
  rw [groupBuild_eq]
  show ((firstOcc (pathHeads l)).map (fun k => (k, groupBuild (tailsOf k l)))).map Prod.fst = _
  rw [List.map_map]
  rw [show (Prod.fst ∘ fun k => (k, groupBuild (tailsOf k l))) = id from rfl, List.map_id]

theorem insertPath_groupBuild : ∀ (p : List String) (l : List (List String)),
    insertPath (groupBuild l) p = groupBuild (l ++ [p])
  | [], l => by
    rw [show insertPath (groupBuild l) [] = groupBuild l from by
      cases hgb : groupBuild l
      rfl]
    exact (groupBuild_congr _ _ (pathHeads_append_nil l).symm
      (fun k => (tailsOf_append_nil k l).symm))
  | s :: rest, l => by
    rw [groupBuild_eq l, insertPath]
    by_cases hs : s ∈ pathHeads l
    · have hany : ((firstOcc (pathHeads l)).map
          (fun k => (k, groupBuild (tailsOf k l)))).any (fun kt => kt.1 = s) = true :=
        List.any_eq_true.mpr ⟨(s, groupBuild (tailsOf s l)),
          List.mem_map_of_mem _ ((mem_firstOcc _ _).mpr hs), by simp⟩
      rw [if_pos hany]
      rw [groupBuild_eq (l ++ [s :: rest]), pathHeads_append_cons,
        firstOcc_append_mem _ _ hs, List.map_map]
      congr 1
      apply List.map_congr_left
      intro k _
      by_cases hk : k = s
      · subst hk
        simp only [Function.comp, if_pos rfl]
        rw [insertPath_groupBuild rest (tailsOf k l), tailsOf_append_cons]
        simp
      · simp only [Function.comp, if_neg (show ¬ (k = s) from hk)]
        rw [tailsOf_append_cons, if_neg (show ¬ s = k from fun e => hk e.symm),
          List.append_nil]
    · have hany : ((firstOcc (pathHeads l)).map
          (fun k => (k, groupBuild (tailsOf k l)))).any (fun kt => kt.1 = s) = false := by
        rw [List.any_eq_false]
        rintro ⟨k, t⟩ hkt
        obtain ⟨k0, hk0, hpair⟩ := List.mem_map.mp hkt
        obtain ⟨rfl, _⟩ := Prod.mk.injEq .. ▸ And.intro (congrArg Prod.fst hpair)
          (congrArg Prod.snd hpair)
        simp only [decide_eq_true_eq]
        intro he
        exact hs ((mem_firstOcc _ _).mp (he ▸ hk0))
      rw [if_neg (by simp [hany])]
      rw [groupBuild_eq (l ++ [s :: rest]), pathHeads_append_cons,
        firstOcc_append_not_mem _ _ hs, List.map_append]
      have hpre : (firstOcc (pathHeads l)).map
          (fun k => (k, groupBuild (tailsOf k (l ++ [s :: rest]))))
          = (firstOcc (pathHeads l)).map (fun k => (k, groupBuild (tailsOf k l))) := by
        apply List.map_congr_left
        intro k hk
        have hks : k ≠ s := fun e => hs (e ▸ (mem_firstOcc _ _).mp hk)
        rw [tailsOf_append_cons, if_neg (show ¬ s = k from fun e => hks e.symm),
          List.append_nil]
      have hsingle : ([s] : List String).map
          (fun k => (k, groupBuild (tailsOf k (l ++ [s :: rest]))))
          = [(s, insertPath (DirTree.node []) rest)] := by
        simp only [List.map_cons, List.map_nil]
        rw [tailsOf_append_cons, if_pos rfl, tailsOf_eq_nil_of_not_mem s l hs,
          List.nil_append]
        rw [show insertPath (DirTree.node []) rest = groupBuild ([] ++ [rest]) from by
          rw [← groupBuild_nil, insertPath_groupBuild rest []]]
        rfl
      rw [hpre, hsingle]
termination_by p _ => p.length

theorem buildTree_eq_groupBuild (l : List (List String)) : buildTree l = groupBuild l := by
  induction l using List.reverseRecOn with
  | nil => rw [buildTree]; exact groupBuild_nil.symm
  | append_singleton xs p ih =>
    rw [buildTree, List.foldl_append, List.foldl_cons, List.foldl_nil]
    rw [show List.foldl insertPath (DirTree.node []) xs = buildTree xs from rfl, ih]
    exact insertPath_groupBuild p xs

theorem lexLe_antisymm : ∀ a b : List Char,
    lexLe a b = true → lexLe b a = true → a = b
  | [], [], _, _ => rfl
  | [], _ :: _, _, h2 => by simp [lexLe] at h2
  | _ :: _, [], h1, _ => by simp [lexLe] at h1
  | a :: as, b :: bs, h1, h2 => by
    by_cases hab : a = b
    · subst hab
      simp only [lexLe, if_pos rfl] at h1 h2
      rw [lexLe_antisymm as bs h1 h2]
    · have hba : b ≠ a := fun e => hab e.symm
      simp only [lexLe, if_neg hab, decide_eq_true_eq] at h1
      simp only [lexLe, if_neg hba, decide_eq_true_eq] at h2
      exact absurd h2 (lt_asymm h1)

theorem sortChildren_eq_map : ∀ cs : List (String × DirTree),
    sortChildren cs = cs.map (fun kt => (kt.1, sortTree kt.2))
  | [] => rfl
  | (k, t) :: cs => by
    rw [sortChildren, sortChildren_eq_map cs]
    rfl

theorem sorted_keyNodup_perm_eq : ∀ (a b : List (String × DirTree)),
    a.Perm b → a.Sorted pairLe → b.Sorted pairLe → (a.map Prod.fst).Nodup → a = b
  | [], b, hp, _, _, _ => (List.Perm.nil_eq hp).symm ▸ rfl
  | x :: as, [], hp, _, _, _ => by
    have := hp.length_eq
    simp at this
  | x :: as, y :: bs, hp, hsa, hsb, hnd => by
    have hxy : x = y := by
      by_cases he : x = y
      · exact he
      · have hxb : x ∈ y :: bs := hp.mem_iff.mp (List.mem_cons_self x as)
        have hya : y ∈ x :: as := hp.mem_iff.mpr (List.mem_cons_self y bs)
        have hxbs : x ∈ bs := by
          rcases List.mem_cons.mp hxb with h | h
          · exact absurd h he
          · exact h
        have hyas : y ∈ as := by
          rcases List.mem_cons.mp hya with h | h
          · exact absurd h.symm he
          · exact h
        have h1 : pairLe x y := List.rel_of_sorted_cons hsa y hyas
        have h2 : pairLe y x := List.rel_of_sorted_cons hsb x hxbs
        have hk : x.1 = y.1 := by
          have := lexLe_antisymm x.1.data y.1.data h1 h2
          cases hx1 : x.1 with
          | mk d1 => cases hy1 : y.1 with
            | mk d2 =>
              rw [hx1, hy1] at this
              simpa [hx1, hy1] using congrArg String.mk this
        exfalso
        have hnotin : x.1 ∉ as.map Prod.fst := (List.nodup_cons.mp hnd).1
        exact hnotin (hk ▸ List.mem_map_of_mem Prod.fst hyas)
    subst hxy
    have htail : as.Perm bs := hp.cons_inv
    rw [sorted_keyNodup_perm_eq as bs htail (List.sorted_cons.mp hsa).2
      (List.sorted_cons.mp hsb).2 (List.nodup_cons.mp hnd).2]

theorem sortTree_groupBuild_perm : ∀ (n : Nat) (l l' : List (List String)),
    listMeasure l ≤ n → l.Perm l' → sortTree (groupBuild l) = sortTree (groupBuild l') := by
  intro n
  induction n with
  | zero =>
    intro l l' hn hp
    have hl : l = [] := by
      cases l with
      | nil => rfl
      | cons p l => simp [listMeasure] at hn
    subst hl
    have hl' : l' = [] := (List.Perm.nil_eq hp).symm
    subst hl'
    rfl
  | succ n ih =>
    intro l l' hn hp
    rw [groupBuild_eq l, groupBuild_eq l']
    simp only [sortTree]
    rw [sortChildren_eq_map, sortChildren_eq_map, List.map_map, List.map_map]
    congr 1
    set F : String → String × DirTree :=
      (fun kt => (kt.1, sortTree kt.2)) ∘ (fun k => (k, groupBuild (tailsOf k l))) with hF
    set F' : String → String × DirTree :=
      (fun kt => (kt.1, sortTree kt.2)) ∘ (fun k => (k, groupBuild (tailsOf k l'))) with hF'
    set K := firstOcc (pathHeads l) with hK
    set K' := firstOcc (pathHeads l') with hK'
    have hKperm : K.Perm K' := firstOcc_perm (hp.filterMap List.head?)
    have hFk : ∀ k ∈ K', F k = F' k := by
      intro k hk'
      have hkl' : k ∈ pathHeads l' := (mem_firstOcc _ _).mp hk'
      have hkl : k ∈ pathHeads l := (hp.filterMap List.head?).mem_iff.mpr hkl'
      have hperm_tails : (tailsOf k l).Perm (tailsOf k l') := hp.filterMap _
      have hlt : listMeasure (tailsOf k l) < listMeasure l := (tailsOf_measure k l).2 hkl
      have hrec := ih (tailsOf k l) (tailsOf k l') (by omega) hperm_tails
      simp only [hF, hF', Function.comp]
      rw [hrec]
    have hmapeq : K'.map F = K'.map F' := List.map_congr_left hFk
    have hPP' : (K.map F).Perm (K'.map F') := hmapeq ▸ hKperm.map F
    have hKnodup : (K.map F |>.map Prod.fst).Nodup := by
      rw [List.map_map]
      rw [show (Prod.fst ∘ F) = id from rfl, List.map_id]
      exact firstOcc_nodup _
    have hnodup2 : ((List.insertionSort pairLe (K.map F)).map Prod.fst).Nodup :=
      (((List.perm_insertionSort pairLe (K.map F)).map Prod.fst).nodup_iff).mpr hKnodup
    exact sorted_keyNodup_perm_eq _ _
      ((List.perm_insertionSort pairLe (K.map F)).trans
        (hPP'.trans (List.perm_insertionSort pairLe (K'.map F')).symm))
      (List.sorted_insertionSort pairLe (K.map F))
      (List.sorted_insertionSort pairLe (K'.map F'))
      hnodup2

theorem generate_tree_view_perm (rootName : String) (files files' : List (List String))
    (h : files.Perm files') :
    generate_tree_view rootName files = generate_tree_view rootName files' := by
  unfold generate_tree_view
  rw [buildTree_eq_groupBuild, buildTree_eq_groupBuild,
    sortTree_groupBuild_perm (listMeasure files) files files' (le_refl _) h]

/-- Claim C9: tree rendering is deterministic — the same root name and
file set (any permutation of the same paths) yields byte-identical text,
with per-level lexicographically sorted siblings and the connector format
of the source; in particular the claim's two-file example renders exactly
as specified. -/
theorem c9_tree_determinism :
    (∀ (rootName : String) (files files' : List (List String)), files.Perm files' →
       generate_tree_view rootName files = generate_tree_view rootName files')
    ∧ generate_tree_view "proj" [["src", "main.py"], ["config.json"]]
      = "proj/\n├── config.json\n└── src\n    └── main.py" :=
  ⟨fun rootName files files' h => generate_tree_view_perm rootName files files' h, by decide⟩

/-- Claim C9 witness: the determinism statement applied to a concrete
two-element permutation. -/
theorem c9_witness :
    generate_tree_view "proj" [["a.py"], ["b", "c.py"]]
      = generate_tree_view "proj" [["b", "c.py"], ["a.py"]] :=
  c9_tree_determinism.1 "proj" [["a.py"], ["b", "c.py"]] [["b", "c.py"], ["a.py"]]
    (by decide)
